import Mathlib

/-!
Verification of the identity-resolution and rating-classification engine of the
kramnik-anomaly-method repository.

The Python sources are shallowly embedded over `PyStr := List Char` (an ASCII
model of Python `str`).  Python string methods (`lower`, `strip`, `split`,
`find`, slicing, `isdigit`, `in`) are modelled by executable Lean functions that
follow CPython semantics on ASCII input.  Python `dict` values (built by
insertion, iterated in insertion order) are modelled by association lists with
update-in-place insertion.  Python `float` arithmetic in `perf_rating` is
modelled over `ℝ`, with the `float("nan")` sentinel modelled as `Option.none`.
-/

/-- Model of a Python `str` restricted to ASCII content: a list of characters. -/
abbrev PyStr := List Char

/-- Python `str.lower` on a single ASCII character. -/
def pyLowerChar (c : Char) : Char :=
  if _h : 65 ≤ c.toNat ∧ c.toNat ≤ 90 then
    Char.ofNatAux (c.toNat + 32) (Or.inl (by omega))
  else c

/-- Python `str.lower` (ASCII). -/
def pyLower (s : PyStr) : PyStr := s.map pyLowerChar

/-- The characters Python `str.strip()` and `str.split()` treat as whitespace. -/
def isPySpace (c : Char) : Bool :=
  c = ' ' || c = '\t' || c = '\n' || c = '\x0b' || c = '\x0c' || c = '\r'

/-- Python `str.strip()` (no argument form): drop whitespace from both ends. -/
def pyStrip (s : PyStr) : PyStr :=
  (((s.dropWhile isPySpace).reverse.dropWhile isPySpace)).reverse

/-- Python `str.split(sep)` for a one-character separator `sep`:
splits on every occurrence, keeping empty pieces (`"".split(sep) == [""]`). -/
def splitOnChar (sep : Char) : PyStr → List PyStr
  | [] => [[]]
  | c :: rest =>
    match splitOnChar sep rest with
    | [] => [[]]
    | h :: t => if c = sep then [] :: h :: t else (c :: h) :: t

/-- Helper for `pySplitWS`; `acc` is the current token, reversed. -/
def pySplitWSAux : PyStr → PyStr → List PyStr
  | [], acc => if acc = [] then [] else [acc.reverse]
  | c :: rest, acc =>
    if isPySpace c then
      if acc = [] then pySplitWSAux rest [] else acc.reverse :: pySplitWSAux rest []
    else pySplitWSAux rest (c :: acc)

/-- Python `str.split()` (no argument form): split on whitespace runs, dropping
empty tokens (`"".split() == []`). -/
def pySplitWS (s : PyStr) : List PyStr := pySplitWSAux s []

/-- Python `" ".join(tokens)`. -/
def joinSpace : List PyStr → PyStr
  | [] => []
  | [t] => t
  | t :: u :: ts => t ++ ' ' :: joinSpace (u :: ts)

/-- Python substring containment `pat in s`. -/
def containsSub (pat : PyStr) : PyStr → Bool
  | [] => pat.isPrefixOf []
  | c :: rest => pat.isPrefixOf (c :: rest) || containsSub pat rest

/-- Index of the first occurrence of `pat` in `s`, if any. -/
def findSubIdx (pat : PyStr) : PyStr → Option Nat
  | [] => if pat.isPrefixOf [] then some 0 else none
  | c :: rest =>
    if pat.isPrefixOf (c :: rest) then some 0
    else (findSubIdx pat rest).map (· + 1)

/-- Python `str.find`: index of the first occurrence, `-1` if absent. -/
def pyFind (s pat : PyStr) : Int :=
  match findSubIdx pat s with
  | some i => (i : Int)
  | none => -1

/-- Python slicing `s[a:b]` with full CPython index semantics
(negative indices count from the end, out-of-range indices clamp). -/
def pySlice (s : PyStr) (a b : Int) : PyStr :=
  let n : Int := s.length
  let lo : Int := if a < 0 then max (n + a) 0 else min a n
  let hi : Int := if b < 0 then max (n + b) 0 else min b n
  (s.take hi.toNat).drop lo.toNat

/-- Python `str.isdigit` (ASCII): nonempty and all characters in 0-9. -/
def pyIsDigit (s : PyStr) : Bool :=
  !(s.isEmpty) && s.all (fun c => '0' ≤ c && c ≤ '9')

/-- Python `int(s)` for an all-digit string. -/
def pyInt (s : PyStr) : Int :=
  s.foldl (fun acc c => 10 * acc + ((c.toNat : Int) - 48)) 0

/-- Lookup in the association-list model of a Python `dict`. -/
def dictLookup {α : Type} (k : PyStr) (m : List (PyStr × α)) : Option α :=
  (m.find? (fun kv => kv.1 = k)).map (·.2)

/-- Insertion in the association-list model of a Python `dict`:
an existing key is updated in place (preserving iteration order),
a new key is appended. -/
def dictInsert {α : Type} (k : PyStr) (v : α) (m : List (PyStr × α)) :
    List (PyStr × α) :=
  if m.any (fun kv => kv.1 = k) then
    m.map (fun kv => if kv.1 = k then (k, v) else kv)
  else m ++ [(k, v)]

/-! ### The regular-expression fragments used by `normalize_name_for_matching`

`re.sub(r'\b<title>\b', '', name)` removes every non-overlapping whole-word
occurrence of a literal title, scanning left to right, and
`re.sub(r'\([a-z]{2,3}\)', '', name)` removes every parenthesised 2-3 letter
code (the quantifier matching greedily).  Both are modelled by single
left-to-right scanners; a pending-skip counter realises the jump over a match
so that the recursion stays structural. -/

/-- A regex word character `\w` (ASCII). -/
def isWordChar (c : Char) : Bool :=
  ('a' ≤ c && c ≤ 'z') || ('A' ≤ c && c ≤ 'Z') || ('0' ≤ c && c ≤ '9') || c = '_'

/-- Word boundary on the left of a position whose preceding character is
`prev` (`none` at the start of the string), for a pattern starting with a
word character. -/
def boundaryBefore (prev : Option Char) : Bool :=
  match prev with
  | none => true
  | some c => !(isWordChar c)

/-- Word boundary on the right of a match, `rest` being the remainder of the
string, for a pattern ending with a word character. -/
def boundaryAfter (rest : PyStr) : Bool :=
  match rest with
  | [] => true
  | c :: _ => !(isWordChar c)

/-- Does a whole-word occurrence of `pat` start at the current position? -/
def wordMatchAt (pat : PyStr) (prev : Option Char) (s : PyStr) : Bool :=
  boundaryBefore prev && pat.isPrefixOf s && boundaryAfter (s.drop pat.length)

/-- One left-to-right pass of `re.sub(r'\b<pat>\b', '', s)`: while `skip > 0`
the scanner is inside an already-matched span and emits nothing. -/
def subWordAux (pat : PyStr) : Option Char → Nat → PyStr → PyStr
  | _, _, [] => []
  | _prev, Nat.succ k, c :: rest => subWordAux pat (some c) k rest
  | prev, 0, c :: rest =>
    if wordMatchAt pat prev (c :: rest) then
      subWordAux pat (some c) (pat.length - 1) rest
    else c :: subWordAux pat (some c) 0 rest

/-- Python `re.sub(r'\b<pat>\b', '', s)` for a literal pattern `pat` that
starts and ends with a word character. -/
def subWord (pat s : PyStr) : PyStr := subWordAux pat none 0 s

/-- Is there a whole-word occurrence of `pat` anywhere in `s` (given the
character preceding the scan position)? -/
def hasWordSubAux (pat : PyStr) : Option Char → PyStr → Bool
  | _, [] => false
  | prev, c :: rest =>
    wordMatchAt pat prev (c :: rest) || hasWordSubAux pat (some c) rest

/-- Does `s` contain a whole-word occurrence of `pat`? -/
def hasWordSub (pat s : PyStr) : Bool := hasWordSubAux pat none s

/-- Length of a match of `\([a-z]{2,3}\)` at the current position, if any
(the greedy quantifier tries three letters before two). -/
def ccMatchLen (s : PyStr) : Option Nat :=
  match s with
  | '(' :: a :: b :: c :: d :: _ =>
    if ('a' ≤ a && a ≤ 'z') && ('a' ≤ b && b ≤ 'z') && ('a' ≤ c && c ≤ 'z') &&
        d = ')' then some 5
    else if ('a' ≤ a && a ≤ 'z') && ('a' ≤ b && b ≤ 'z') && c = ')' then some 4
    else none
  | '(' :: a :: b :: c :: [] =>
    if ('a' ≤ a && a ≤ 'z') && ('a' ≤ b && b ≤ 'z') && c = ')' then some 4
    else none
  | _ => none

/-- One pass of `re.sub(r'\([a-z]{2,3}\)', '', s)` with a pending-skip
counter. -/
def subCCAux : Nat → PyStr → PyStr
  | _, [] => []
  | Nat.succ k, _c :: rest => subCCAux k rest
  | 0, c :: rest =>
    match ccMatchLen (c :: rest) with
    | some len => subCCAux (len - 1) rest
    | none => c :: subCCAux 0 rest

/-- Python `re.sub(r'\([a-z]{2,3}\)', '', s)`. -/
def subCC (s : PyStr) : PyStr := subCCAux 0 s

/-- Is there a match of `\([a-z]{2,3}\)` anywhere in `s`? -/
def hasCC : PyStr → Bool
  | [] => false
  | c :: rest => (ccMatchLen (c :: rest)).isSome || hasCC rest

/-! ### The two name normalizers -/

/-- Embeds `normalize_fide_name` (identical in `kramnik_anomaly_method.py`
lines 573-591 and `create_fide_2500.py` lines 160-178): normalize the
registry-form name `"Last, First [Middle]"` to the key
`"first_last"`, lowercased. -/
def normalize_fide_name (name : PyStr) : PyStr :=
  if name = [] || name = "-".data || name = "-, -".data then []
  else
    let parts := splitOnChar ',' name
    let fallback := ((pyLower name).map
        (fun c => if c = ' ' then '_' else c)).filter (fun c => c ≠ ',')
    match parts with
    | p0 :: p1 :: _ =>
      let last_name := pyStrip p0
      let first_parts := pySplitWS (pyStrip p1)
      let first_name := first_parts.headD []
      if first_name ≠ [] && last_name ≠ [] then
        pyLower first_name ++ '_' :: pyLower last_name
      else fallback
    | _ => fallback

/-- The title tokens stripped by `normalize_name_for_matching`, in source
order. -/
def matchingTitles : List PyStr :=
  ["gm".data, "im".data, "fm".data, "cm".data, "wgm".data, "wim".data,
   "wfm".data, "wcm".data, "grandmaster".data, "international master".data,
   "fide master".data, "candidate master".data]

/-- Embeds `normalize_name_for_matching` (`kramnik_anomaly_method.py` lines
594-614): lowercase and strip, remove each title as a whole word (each removal
followed by `strip`), remove parenthesised 2-3 letter country codes, then
collapse whitespace via `" ".join(name.split())`. -/
def normalize_name_for_matching (name : PyStr) : PyStr :=
  if name = [] then []
  else
    let n1 := pyStrip (pyLower name)
    let n2 := matchingTitles.foldl (fun acc t => pyStrip (subWord t acc)) n1
    let n3 := pyStrip (subCC n2)
    joinSpace (pySplitWS n3)

example : normalize_fide_name "Carlsen, Magnus".data = "magnus_carlsen".data := by
  decide

example : normalize_fide_name "Van der Berg, Jan".data
    = "jan_van der berg".data := by decide

example : normalize_fide_name "jan_van der berg".data
    = "jan_van_der_berg".data := by decide

example : normalize_fide_name "123".data = "123".data := by decide

example : normalize_fide_name "-".data = [] := by decide

example : normalize_name_for_matching "GM Magnus Carlsen".data
    = "magnus carlsen".data := by decide

example : normalize_name_for_matching "g(us)m".data = "gm".data := by decide

example : normalize_name_for_matching "gm".data = [] := by decide

example : normalize_name_for_matching "  GM  Oleksandr   Ivanov (ua) ".data
    = "oleksandr ivanov".data := by decide

/-! ### Performance rating (`perf_rating`, identical in
`kramnik_anomaly_method.py` lines 323-331 and `recompute_bands.py` lines
6-14).  The Python `float` arithmetic is modelled over `ℝ`; the
`float("nan")` returned for `n == 0` is modelled as `Option.none`. -/

/-- Embeds `perf_rating(score, n, avg_opp)`. -/
noncomputable def perf_rating (score : ℝ) (n : ℕ) (avg_opp : ℝ) : Option ℝ :=
  if n = 0 then none
  else if score ≤ 0 then some (avg_opp - 800)
  else if (n : ℝ) ≤ score then some (avg_opp + 800)
  else some (avg_opp + 400 * Real.logb 10 (score / ((n : ℝ) - score)))

/-! ### Band classifiers.  Ratings (Python `float`) are modelled over `ℚ`,
which keeps the threshold comparisons decidable and executable. -/

/-- Embeds `assign_band_from_rating(r, use_fide)` of
`kramnik_anomaly_method.py` lines 400-423.  `None` input and the final
`return None` are modelled as `Option.none`. -/
def assign_band_from_rating (r : Option ℚ) (use_fide : Bool) : Option String :=
  match r with
  | none => none
  | some x =>
    if use_fide then
      if x ≥ 2800 then some "800+"
      else if x ≥ 2700 then some "700"
      else if x ≥ 2600 then some "600"
      else if x ≥ 2500 then some "500"
      else none
    else
      if x ≥ 2800 then some "800+"
      else if x ≥ 2700 then some "700"
      else if x ≥ 2600 then some "600"
      else none

namespace RecomputeBands

/-- Embeds `assign_band_from_rating(r)` of `recompute_bands.py` lines 16-27,
which returns the sentinel label `"below_2500"` (rather than an absent value)
below the lowest threshold. -/
def assign_band_from_rating (r : ℚ) : String :=
  if r ≥ 2800 then "800+"
  else if r ≥ 2700 then "700"
  else if r ≥ 2600 then "600"
  else if r ≥ 2500 then "500"
  else "below_2500"

end RecomputeBands

/-! ### Registry parser.

`parse_fide_ratings_correct` (`create_fide_2500.py` lines 79-158) and
`parse_fide_ratings_data` (`kramnik_anomaly_method.py` lines 488-571) share
their parsing logic and differ only in which diagnostic prints are gated by
the `verbose` flag.  Diagnostic prints are modelled as emitted `ParseDiag`
values; the `try/except` around the row body is dead (no statement in it can
raise once the guards have passed) and is not modelled. -/

/-- One diagnostic print of the registry parser. -/
inductive ParseDiag where
  | parsingStart (minRating : Int)
  | headerNotFound
  | columnPositions (nameS fedS sexS titS : Int)
  | ratingPositions (foaS srtngS rrtngS brtngS : Int)
  | found (name : PyStr) (rating : Int)
  | parsedCount (n : Nat) (minRating : Int)
  deriving DecidableEq

/-- The header-line test: the first line containing both `"ID Number"` and
`"Name"` is the header. -/
def headerPred (line : PyStr) : Bool :=
  containsSub "ID Number".data line && containsSub "Name".data line

/-- Column byte-offsets located in the header line via `str.find`
(`-1` when a label is absent, as in Python). -/
structure HeaderCols where
  name_start : Int
  fed_start : Int
  sex_start : Int
  tit_start : Int
  foa_start : Int
  srtng_start : Int
  rrtng_start : Int
  brtng_start : Int
  deriving DecidableEq

/-- Locate all column offsets in the header line. -/
def headerCols (header_line : PyStr) : HeaderCols where
  name_start := pyFind header_line "Name".data
  fed_start := pyFind header_line "Fed".data
  sex_start := pyFind header_line "Sex".data
  tit_start := pyFind header_line "Tit".data
  foa_start := pyFind header_line "FOA".data
  srtng_start := pyFind header_line "SRtng".data
  rrtng_start := pyFind header_line "RRtng".data
  brtng_start := pyFind header_line "BRtng".data

/-- The parser's loop state: the mapping under construction, the count of
accepted records, and the diagnostics emitted so far by the row loop. -/
structure RowState where
  mapping : List (PyStr × Int)
  processed : Nat
  log : List ParseDiag
  deriving DecidableEq

/-- One iteration of the row loop (`create_fide_2500.py` lines 117-150,
identically `kramnik_anomaly_method.py` lines 529-562): skip blank lines and
lines whose first ten characters do not trim to digits, extract the name
between the Name and Fed offsets and the five-character blitz-rating field at
the BRtng offset, and accept the record only if the rating field is all-digit,
meets the threshold, the name is not a placeholder, and the normalized name
key is nonempty. -/
def rowStep (cols : HeaderCols) (min_rating : Int) (st : RowState)
    (line : PyStr) : RowState :=
  if pyStrip line = [] then st
  else if !(pyIsDigit (pyStrip (pySlice line 0 10))) then st
  else if cols.name_start < (line.length : Int) ∧
      cols.fed_start < (line.length : Int) then
    let name := pyStrip (pySlice line cols.name_start cols.fed_start)
    if name = "-".data ∨ name = "-, -".data ∨ name = [] then st
    else if cols.brtng_start < (line.length : Int) then
      let brtng_str := pyStrip (pySlice line cols.brtng_start
        (cols.brtng_start + 5))
      if pyIsDigit brtng_str then
        let blitz_rating := pyInt brtng_str
        if min_rating ≤ blitz_rating then
          let normalized_name := normalize_fide_name name
          if normalized_name ≠ [] then
            { mapping := dictInsert normalized_name blitz_rating st.mapping,
              processed := st.processed + 1,
              log := st.log ++ (if st.processed + 1 ≤ 10 then
                [ParseDiag.found name blitz_rating] else []) }
          else st
        else st
      else st
    else st
  else st

/-- The row loop: `for i, line in enumerate(lines): if i < 2: continue; ...`
processes exactly the lines at index two and beyond, in order. -/
def processRows (cols : HeaderCols) (min_rating : Int)
    (lines : List PyStr) : RowState :=
  (lines.drop 2).foldl (rowStep cols min_rating) ⟨[], 0, []⟩

/-- Embeds `parse_fide_ratings_correct(data, min_rating)` of
`create_fide_2500.py` lines 79-158, returning the mapping together with the
diagnostics it prints (all prints of this variant are unconditional). -/
def parse_fide_ratings_correct (data : PyStr) (min_rating : Int) :
    List (PyStr × Int) × List ParseDiag :=
  let lines := splitOnChar '\n' (pyStrip data)
  match lines.find? headerPred with
  | none => ([], [ParseDiag.parsingStart min_rating, ParseDiag.headerNotFound])
  | some header_line =>
    let cols := headerCols header_line
    let st := processRows cols min_rating lines
    (st.mapping,
      [ParseDiag.parsingStart min_rating,
       ParseDiag.columnPositions cols.name_start cols.fed_start cols.sex_start
         cols.tit_start,
       ParseDiag.ratingPositions cols.foa_start cols.srtng_start
         cols.rrtng_start cols.brtng_start] ++ st.log ++
      [ParseDiag.parsedCount st.processed min_rating])

/-- Embeds `parse_fide_ratings_data(data, min_rating, verbose)` of
`kramnik_anomaly_method.py` lines 488-571: identical parsing logic, but the
start, header-not-found, column-position and final-count prints are emitted
only when `verbose` is set (the per-record `Found:` prints stay
unconditional). -/
def parse_fide_ratings_data (data : PyStr) (min_rating : Int)
    (verbose : Bool) : List (PyStr × Int) × List ParseDiag :=
  let lines := splitOnChar '\n' (pyStrip data)
  let log0 := if verbose then [ParseDiag.parsingStart min_rating] else []
  match lines.find? headerPred with
  | none => ([], log0 ++ if verbose then [ParseDiag.headerNotFound] else [])
  | some header_line =>
    let cols := headerCols header_line
    let st := processRows cols min_rating lines
    (st.mapping,
      log0 ++
      (if verbose then
        [ParseDiag.columnPositions cols.name_start cols.fed_start
           cols.sex_start cols.tit_start,
         ParseDiag.ratingPositions cols.foa_start cols.srtng_start
           cols.rrtng_start cols.brtng_start] else []) ++ st.log ++
      (if verbose then [ParseDiag.parsedCount st.processed min_rating]
       else []))

/-! ### Identity resolver.

`find_fide_rating_for_player` (`kramnik_anomaly_method.py` lines 616-696) and
`get_fide_rating_for_player_with_name` (lines 702-816) first fetch the
player's profile (network access through the global `_api_cache`, see below)
to obtain `player_name`, then run a deterministic cascade over the registry
index.  The post-fetch cascade is embedded as a function of
`(username, player_name, index)`; the index — a Python dict iterated in
insertion order — is modelled as an association list. -/

/-- The registry index: normalized name key to blitz rating. -/
abbrev FideMap := List (PyStr × Int)

/-- EXACT_HANDLE: the lowercased handle itself is a key of the index. -/
def exact_handle_stage (username : PyStr) (fide_mapping : FideMap) :
    Option Int :=
  dictLookup (pyLower username) fide_mapping

/-- DIRECT_ORDER: normalize the display name, form
`"<first_token>_<last_token>"`, look it up. -/
def direct_order_stage (player_name : PyStr) (fide_mapping : FideMap) :
    Option Int :=
  if player_name = [] then none
  else
    let name_parts := pySplitWS (normalize_name_for_matching player_name)
    if 2 ≤ name_parts.length then
      dictLookup (name_parts.headD [] ++ '_' :: name_parts.getLastD [])
        fide_mapping
    else none

/-- REVERSED_ORDER: the same tokens in the order
`"<last_token>_<first_token>"`. -/
def reversed_order_stage (player_name : PyStr) (fide_mapping : FideMap) :
    Option Int :=
  if player_name = [] then none
  else
    let name_parts := pySplitWS (normalize_name_for_matching player_name)
    if 2 ≤ name_parts.length then
      dictLookup (name_parts.getLastD [] ++ '_' :: name_parts.headD [])
        fide_mapping
    else none

/-- The per-token test of the SUBSTRING_PARTIAL strategy: the query token
equals the registry token, or both exceed four characters and one is a
substring of the other. -/
def tokenMatch (q f : PyStr) : Bool :=
  q = f || (4 < q.length && 4 < f.length &&
    (containsSub q f || containsSub f q))

/-- Does a registry key pass the SUBSTRING_PARTIAL test against the query's
first and last tokens?  Keys that do not split into at least two
underscore-separated parts are skipped. -/
def substringPairMatch (first_name last_name fide_name : PyStr) : Bool :=
  let fide_parts := splitOnChar '_' fide_name
  if 2 ≤ fide_parts.length then
    tokenMatch first_name (fide_parts.headD []) &&
      tokenMatch last_name (fide_parts.getLastD [])
  else false

/-- SUBSTRING_PARTIAL: attempted only when the normalized display name has
exactly two tokens; the first index entry whose key matches both tokens
wins. -/
def substring_partial_stage (player_name : PyStr) (fide_mapping : FideMap) :
    Option Int :=
  if player_name = [] then none
  else
    let name_parts := pySplitWS (normalize_name_for_matching player_name)
    match name_parts with
    | [first_name, last_name] =>
      (fide_mapping.find? (fun kv =>
        substringPairMatch first_name last_name kv.1)).map (·.2)
    | _ => none

/-- The static spelling-variation table of the VARIANT_SPELLING strategy
(`kramnik_anomaly_method.py` lines 784-793): the query's own first token
followed by its listed variants. -/
def firstVariations (first_name : PyStr) : List PyStr :=
  first_name ::
    (if first_name = "oleksandr".data then
      ["olexandr".data, "alexander".data, "aleksandr".data]
    else if first_name = "aleksei".data then
      ["alexey".data, "alexei".data, "alexey".data]
    else if first_name = "vladimir".data then ["vladimir".data]
    else [])

/-- Does a registry key match some spelling variation of the query tokens?
The last token must match exactly. -/
def variantPairMatch (first_name last_name fide_name : PyStr) : Bool :=
  let fide_parts := splitOnChar '_' fide_name
  if 2 ≤ fide_parts.length then
    (firstVariations first_name).any (fun fv =>
      [last_name].any (fun lv =>
        fv = fide_parts.headD [] && lv = fide_parts.getLastD []))
  else false

/-- VARIANT_SPELLING: attempted when the normalized display name has at least
two tokens; the first index entry matching a spelling variation wins. -/
def variant_spelling_stage (player_name : PyStr) (fide_mapping : FideMap) :
    Option Int :=
  if player_name = [] then none
  else
    let name_parts := pySplitWS (normalize_name_for_matching player_name)
    if 2 ≤ name_parts.length then
      (fide_mapping.find? (fun kv =>
        variantPairMatch (name_parts.headD []) (name_parts.getLastD [])
          kv.1)).map (·.2)
    else none

/-- The post-fetch cascade of `find_fide_rating_for_player`
(`kramnik_anomaly_method.py` lines 616-696), written with the source's
control flow: exact handle, then the direct/reversed block, then strict
partial matching.  (This variant has no spelling-variation stage.)  The
source function returns the rating only. -/
def find_fide_rating_for_player_core (username player_name : PyStr)
    (fide_mapping : FideMap) : Option Int :=
  match dictLookup (pyLower username) fide_mapping with
  | some r => some r
  | none =>
    let step2 :=
      if player_name = [] then none
      else
        let name_parts := pySplitWS (normalize_name_for_matching player_name)
        if 2 ≤ name_parts.length then
          match dictLookup (name_parts.headD [] ++ '_' ::
              name_parts.getLastD []) fide_mapping with
          | some r => some r
          | none =>
            dictLookup (name_parts.getLastD [] ++ '_' ::
              name_parts.headD []) fide_mapping
        else none
    match step2 with
    | some r => some r
    | none => substring_partial_stage player_name fide_mapping

/-- The post-fetch cascade of `get_fide_rating_for_player_with_name`
(`kramnik_anomaly_method.py` lines 702-816): the same cascade extended with
the spelling-variation stage.  The source returns the pair
`(rating, player_name)`; only the rating component carries resolution
information, so the core returns it. -/
def get_fide_rating_for_player_with_name_core (username player_name : PyStr)
    (fide_mapping : FideMap) : Option Int :=
  match find_fide_rating_for_player_core username player_name fide_mapping with
  | some r => some r
  | none => variant_spelling_stage player_name fide_mapping

/-- First hit of a list of strategy results. -/
def firstSome {α : Type} : List (Option α) → Option α
  | [] => none
  | o :: rest =>
    match o with
    | some r => some r
    | none => firstSome rest

/-- The cascade as the specification states it: the five strategies evaluated
in strict priority order, stopping at the first hit. -/
def cascadeSpec (username player_name : PyStr) (fide_mapping : FideMap) :
    Option Int :=
  firstSome
    [exact_handle_stage username fide_mapping,
     direct_order_stage player_name fide_mapping,
     reversed_order_stage player_name fide_mapping,
     substring_partial_stage player_name fide_mapping,
     variant_spelling_stage player_name fide_mapping]

/-! ### The global API cache.

`find_fide_rating_for_player` begins by fetching the player's profile with
`fetch_json` (`kramnik_anomaly_method.py` lines 104-147), which consults the
module-level `_api_cache` for basic player-profile URLs and returns the
cached response when present.  The cache is modelled as a mapping from URL to
the profile's `name` field (the only field the resolver consumes); a URL not
in the cache means the network request is made — network access is outside
the model, so an absent entry is modelled as a failed fetch, which makes the
source return `None`. -/

/-- The profile URL `f"{BASE}/player/{username}"`. -/
def profileUrl (username : PyStr) : PyStr :=
  "https://api.chess.com/pub/player/".data ++ username

/-- Embeds `find_fide_rating_for_player(username, fide_mapping)` including
its profile fetch through the global `_api_cache` (modelled explicitly as the
`api_cache` argument). -/
def find_fide_rating_for_player (username : PyStr) (fide_mapping : FideMap)
    (api_cache : List (PyStr × PyStr)) : Option Int :=
  match dictLookup (profileUrl username) api_cache with
  | none => none
  | some player_name =>
    find_fide_rating_for_player_core username player_name fide_mapping

/-- The acceptance test of one row of the registry parser, returning the
(normalized-key, rating) contribution of a line, if any: the same guard
chain as `rowStep`, separated from the state update for reasoning. -/
def rowAccepts (cols : HeaderCols) (min_rating : Int) (line : PyStr) :
    Option (PyStr × Int) :=
  if pyStrip line = [] then none
  else if !(pyIsDigit (pyStrip (pySlice line 0 10))) then none
  else if cols.name_start < (line.length : Int) ∧
      cols.fed_start < (line.length : Int) then
    let name := pyStrip (pySlice line cols.name_start cols.fed_start)
    if name = "-".data ∨ name = "-, -".data ∨ name = [] then none
    else if cols.brtng_start < (line.length : Int) then
      let brtng_str := pyStrip (pySlice line cols.brtng_start
        (cols.brtng_start + 5))
      if pyIsDigit brtng_str then
        let blitz_rating := pyInt brtng_str
        if min_rating ≤ blitz_rating then
          let normalized_name := normalize_fide_name name
          if normalized_name ≠ [] then some (normalized_name, blitz_rating)
          else none
        else none
      else none
    else none
  else none


/-! ## Claim theorems -/

/-- C1 (counterexample).  The claim says a rating below 2500 yields an absent
band (no label); `recompute_bands.assign_band_from_rating(2499)` instead
yields the label `"below_2500"`, and the kramnik classifier outside FIDE mode
maps 2500 to an absent band rather than `"500"`. -/
theorem c1_band_below_threshold_counterexample :
    RecomputeBands.assign_band_from_rating 2499 = "below_2500" ∧
    assign_band_from_rating (some 2500) false = none := by
  constructor
  · norm_num [RecomputeBands.assign_band_from_rating]
  · norm_num [assign_band_from_rating]

/-- C1 (amended).  For every rating, the FIDE-mode classifier of
`kramnik_anomaly_method.py` follows the threshold table exactly as claimed
(absent below 2500); `recompute_bands.py` uses the same thresholds but
returns the sentinel label `"below_2500"` below 2500 instead of an absent
band; and the non-FIDE mode of the kramnik classifier has no 2500 band. -/
theorem c1_band_thresholds (r : ℚ) :
    (2800 ≤ r →
      assign_band_from_rating (some r) true = some "800+" ∧
      RecomputeBands.assign_band_from_rating r = "800+") ∧
    (2700 ≤ r ∧ r < 2800 →
      assign_band_from_rating (some r) true = some "700" ∧
      RecomputeBands.assign_band_from_rating r = "700") ∧
    (2600 ≤ r ∧ r < 2700 →
      assign_band_from_rating (some r) true = some "600" ∧
      RecomputeBands.assign_band_from_rating r = "600") ∧
    (2500 ≤ r ∧ r < 2600 →
      assign_band_from_rating (some r) true = some "500" ∧
      RecomputeBands.assign_band_from_rating r = "500" ∧
      assign_band_from_rating (some r) false = none) ∧
    (r < 2500 →
      assign_band_from_rating (some r) true = none ∧
      RecomputeBands.assign_band_from_rating r = "below_2500") ∧
    assign_band_from_rating none true = none := by
  unfold assign_band_from_rating RecomputeBands.assign_band_from_rating
  refine ⟨fun h => ?_, fun h => ?_, fun h => ?_, fun h => ?_, fun h => ?_, rfl⟩ <;>
    · simp only []
      split_ifs <;> first
        | (exact ⟨rfl, rfl⟩)
        | (exact ⟨rfl, rfl, rfl⟩)
        | (exact False.elim ‹False›)
        | (exfalso; linarith [h.1, h.2])
        | (exfalso; linarith [h])

/-- C1 (witness).  The amended theorem evaluated at the boundary-exact
ratings 2799, 2800, 2500 and 2499. -/
theorem c1_band_thresholds_witness :
    (assign_band_from_rating (some 2799) true = some "700" ∧
      RecomputeBands.assign_band_from_rating 2799 = "700") ∧
    (assign_band_from_rating (some 2800) true = some "800+" ∧
      RecomputeBands.assign_band_from_rating 2800 = "800+") ∧
    (assign_band_from_rating (some 2500) true = some "500" ∧
      RecomputeBands.assign_band_from_rating 2500 = "500" ∧
      assign_band_from_rating (some 2500) false = none) ∧
    (assign_band_from_rating (some 2499) true = none ∧
      RecomputeBands.assign_band_from_rating 2499 = "below_2500") :=
  ⟨(c1_band_thresholds 2799).2.1 ⟨by norm_num, by norm_num⟩,
   (c1_band_thresholds 2800).1 (by norm_num),
   (c1_band_thresholds 2500).2.2.2.1 ⟨by norm_num, by norm_num⟩,
   (c1_band_thresholds 2499).2.2.2.2.1 (by norm_num)⟩

/-- C6 (counterexample).  The claim says every input with no alphabetic
character normalizes to the empty string; the input `"123"` has no alphabetic
character yet both normalizers return `"123"`, not the empty string. -/
theorem c6_nonalpha_counterexample :
    (∀ c ∈ "123".data, c.isAlpha = false) ∧
    normalize_fide_name "123".data = "123".data ∧
    normalize_name_for_matching "123".data = "123".data ∧
    "123".data ≠ ([] : PyStr) := by
  refine ⟨by decide, by decide, by decide, by decide⟩

/-- C6 (amended).  Normalization is total (the embedding is a total Lean
function, mirroring that no statement in the source can raise), and the empty
string and the placeholder names normalize to the empty string; a
non-alphabetic input need not normalize to empty. -/
theorem c6_normalizer_empty_cases :
    normalize_fide_name [] = [] ∧
    normalize_fide_name "-".data = [] ∧
    normalize_fide_name "-, -".data = [] ∧
    normalize_name_for_matching [] = [] := by
  refine ⟨by decide, by decide, by decide, by decide⟩

/-- C2.  The performance rating follows the claimed case analysis — undefined
(NaN, modelled as `none`) for zero games, clamped to avgOpp ∓ 800 at the
score boundaries, and the logistic estimator otherwise — and takes the three
claimed boundary values. -/
theorem c2_perf_rating_formula :
    (∀ (score : ℝ) (n : ℕ) (avg_opp : ℝ),
      (n = 0 → perf_rating score n avg_opp = none) ∧
      (n ≠ 0 → score ≤ 0 →
        perf_rating score n avg_opp = some (avg_opp - 800)) ∧
      (n ≠ 0 → (n : ℝ) ≤ score →
        perf_rating score n avg_opp = some (avg_opp + 800)) ∧
      (n ≠ 0 → 0 < score → score < (n : ℝ) →
        perf_rating score n avg_opp =
          some (avg_opp + 400 * Real.logb 10 (score / ((n : ℝ) - score))))) ∧
    perf_rating 0 5 2600 = some 1800 ∧
    perf_rating 5 5 2600 = some 3400 ∧
    perf_rating 2.5 5 2600 = some 2600 := by
  have key : ∀ (score : ℝ) (n : ℕ) (avg_opp : ℝ),
      (n = 0 → perf_rating score n avg_opp = none) ∧
      (n ≠ 0 → score ≤ 0 →
        perf_rating score n avg_opp = some (avg_opp - 800)) ∧
      (n ≠ 0 → (n : ℝ) ≤ score →
        perf_rating score n avg_opp = some (avg_opp + 800)) ∧
      (n ≠ 0 → 0 < score → score < (n : ℝ) →
        perf_rating score n avg_opp =
          some (avg_opp + 400 * Real.logb 10 (score / ((n : ℝ) - score)))) := by
    intro score n avg_opp
    refine ⟨fun h => ?_, fun hn h0 => ?_, fun hn hge => ?_, fun hn h0 hlt => ?_⟩
    · simp [perf_rating, h]
    · simp [perf_rating, hn, h0]
    · have hn1 : (1 : ℝ) ≤ (n : ℝ) := by exact_mod_cast Nat.one_le_iff_ne_zero.2 hn
      have hpos : ¬ score ≤ 0 := by linarith
      simp [perf_rating, hn, hpos, hge]
    · have h1 : ¬ score ≤ 0 := by linarith
      have h2 : ¬ (n : ℝ) ≤ score := by linarith
      simp [perf_rating, hn, h1, h2]
  refine ⟨key, ?_, ?_, ?_⟩
  · have := ((key 0 5 2600).2.1 (by norm_num) (by norm_num))
    rw [this]; norm_num
  · have := ((key 5 5 2600).2.2.1 (by norm_num) (by norm_num))
    rw [this]; norm_num
  · have := ((key 2.5 5 2600).2.2.2 (by norm_num) (by norm_num) (by norm_num))
    rw [this]
    norm_num [Real.logb_one]

/-- C2 (witness).  The case analysis applied at a concrete input with the
hypotheses discharged: one game with score one half. -/
theorem c2_perf_rating_formula_witness :
    perf_rating 0.5 1 2600 =
      some (2600 + 400 * Real.logb 10 (0.5 / ((1 : ℕ) - 0.5))) :=
  (c2_perf_rating_formula.1 0.5 1 2600).2.2.2 (by norm_num) (by norm_num)
    (by norm_num)

/-- C10.  The performance rating is anti-symmetric about the opponent
average: for a positive game count and a score within range, the performance
ratings of a score and of its complement are both defined and sum to twice
the opponent average. -/
theorem c10_perf_rating_antisymmetric (score avg_opp : ℝ) (n : ℕ)
    (hn : 0 < n) (h0 : 0 ≤ score) (hs : score ≤ (n : ℝ)) :
    ∃ p q, perf_rating score n avg_opp = some p ∧
      perf_rating ((n : ℝ) - score) n avg_opp = some q ∧
      p + q = 2 * avg_opp := by
  have hn0 : n ≠ 0 := Nat.pos_iff_ne_zero.mp hn
  have hn1 : (1 : ℝ) ≤ (n : ℝ) := by exact_mod_cast hn
  by_cases hzero : score ≤ 0
  · have hse : score = 0 := le_antisymm hzero h0
    refine ⟨avg_opp - 800, avg_opp + 800, ?_, ?_, by ring⟩
    · simp [perf_rating, hn0, hzero]
    · have hpos : ¬ (n : ℝ) - score ≤ 0 := by rw [hse]; simp; linarith
      have hge : (n : ℝ) ≤ (n : ℝ) - score := by rw [hse]; simp
      simp [perf_rating, hn0, hpos, hge]
  · by_cases hfull : (n : ℝ) ≤ score
    · have hse : score = (n : ℝ) := le_antisymm hs hfull
      refine ⟨avg_opp + 800, avg_opp - 800, ?_, ?_, by ring⟩
      · simp [perf_rating, hn0, hzero, hfull]
      · have hz : (n : ℝ) - score ≤ 0 := by rw [hse]; simp
        simp [perf_rating, hn0, hz]
    · push_neg at hzero hfull
      have hlt : score < (n : ℝ) := hfull
      have hq1 : ¬ (n : ℝ) - score ≤ 0 := by push_neg; linarith
      have hq2 : ¬ (n : ℝ) ≤ (n : ℝ) - score := by push_neg; linarith
      have hz1 : ¬ score ≤ 0 := by push_neg; exact hzero
      have hz2 : ¬ (n : ℝ) ≤ score := by push_neg; exact hlt
      refine ⟨avg_opp + 400 * Real.logb 10 (score / ((n : ℝ) - score)),
        avg_opp + 400 * Real.logb 10 (((n : ℝ) - score) /
          ((n : ℝ) - ((n : ℝ) - score))), ?_, ?_, ?_⟩
      · simp [perf_rating, hn0, hz1, hz2]
      · simp [perf_rating, hn0, hq1, hq2]
      · have hcancel : (n : ℝ) - ((n : ℝ) - score) = score := by ring
        rw [hcancel]
        have hinv : ((n : ℝ) - score) / score = (score / ((n : ℝ) - score))⁻¹ :=
          (inv_div score ((n : ℝ) - score)).symm
        rw [hinv, Real.logb_inv]
        ring

/-- C10 (witness).  The anti-symmetry law applied at score 1 of 5 games
against average 2600. -/
theorem c10_perf_rating_antisymmetric_witness :
    ∃ p q, perf_rating 1 5 2600 = some p ∧
      perf_rating ((5 : ℕ) - (1 : ℝ)) 5 2600 = some q ∧ p + q = 2 * 2600 :=
  c10_perf_rating_antisymmetric 1 2600 5 (by norm_num) (by norm_num)
    (by norm_num)

/-- C9 (counterexample).  `find_fide_rating_for_player` consults the global
`_api_cache` through `fetch_json`; the same (query, index) pair yields
different MatchResults under two different cache states, so the resolver
function is not pure in (query, index) alone. -/
theorem c9_cache_dependence_counterexample :
    find_fide_rating_for_player "opponent1".data
        [("magnus_carlsen".data, 2900)] [] = none ∧
    find_fide_rating_for_player "opponent1".data
        [("magnus_carlsen".data, 2900)]
        [(profileUrl "opponent1".data, "Magnus Carlsen".data)] = some 2900 ∧
    find_fide_rating_for_player "opponent1".data
        [("magnus_carlsen".data, 2900)] [] ≠
      find_fide_rating_for_player "opponent1".data
        [("magnus_carlsen".data, 2900)]
        [(profileUrl "opponent1".data, "Magnus Carlsen".data)] := by
  refine ⟨by decide, by decide, by decide⟩

/-- C9 (amended).  The resolver depends on the global cache only through the
profile entry for the queried handle: whenever two cache states agree on that
entry, the resolver returns the same MatchResult — i.e. the cascade itself is
a pure function of (handle, display name, index), and the index, passed by
value, is never mutated. -/
theorem c9_resolver_pure_given_profile (username : PyStr)
    (fide_mapping : FideMap) (cache1 cache2 : List (PyStr × PyStr))
    (h : dictLookup (profileUrl username) cache1 =
      dictLookup (profileUrl username) cache2) :
    find_fide_rating_for_player username fide_mapping cache1 =
      find_fide_rating_for_player username fide_mapping cache2 := by
  unfold find_fide_rating_for_player
  rw [h]

/-- C9 (witness).  Two distinct cache states agreeing on the queried
profile entry yield the same result. -/
theorem c9_resolver_pure_given_profile_witness :
    find_fide_rating_for_player "opponent1".data
        [("magnus_carlsen".data, 2900)]
        [(profileUrl "opponent1".data, "Magnus Carlsen".data)] =
      find_fide_rating_for_player "opponent1".data
        [("magnus_carlsen".data, 2900)]
        [(profileUrl "otherplayer".data, "Someone Else".data),
         (profileUrl "opponent1".data, "Magnus Carlsen".data)] :=
  c9_resolver_pure_given_profile "opponent1".data
    [("magnus_carlsen".data, 2900)] _ _ (by decide)

/-- The four-stage cascade of `find_fide_rating_for_player` equals the
first-hit evaluation of its strategies in priority order. -/
lemma find_core_as_firstSome (username player_name : PyStr)
    (fide_mapping : FideMap) :
    find_fide_rating_for_player_core username player_name fide_mapping =
      firstSome
        [exact_handle_stage username fide_mapping,
         direct_order_stage player_name fide_mapping,
         reversed_order_stage player_name fide_mapping,
         substring_partial_stage player_name fide_mapping] := by
  cases hl : dictLookup (pyLower username) fide_mapping with
  | some r =>
    simp [find_fide_rating_for_player_core, exact_handle_stage, hl, firstSome]
  | none =>
    simp only [find_fide_rating_for_player_core, exact_handle_stage, hl,
      firstSome]
    by_cases hpn : player_name = []
    · simp [hpn, direct_order_stage, reversed_order_stage,
        substring_partial_stage, firstSome]
    · simp only [direct_order_stage, reversed_order_stage, hpn, if_neg,
        ite_false]
      by_cases hlen :
          2 ≤ (pySplitWS (normalize_name_for_matching player_name)).length
      · simp only [hlen, if_pos, ite_true]
        cases hd : dictLookup
            ((pySplitWS (normalize_name_for_matching player_name)).headD []
              ++ '_' ::
              (pySplitWS (normalize_name_for_matching player_name)).getLastD
                []) fide_mapping with
        | some r => simp [firstSome]
        | none =>
          cases hr : dictLookup
              ((pySplitWS (normalize_name_for_matching
                player_name)).getLastD [] ++ '_' ::
                (pySplitWS (normalize_name_for_matching
                  player_name)).headD []) fide_mapping with
          | some r => simp [firstSome]
          | none =>
            cases substring_partial_stage player_name fide_mapping <;>
              simp [firstSome]
      · cases hs : substring_partial_stage player_name fide_mapping <;>
          simp [hlen, firstSome, hs]

/-- The five-stage cascade of `get_fide_rating_for_player_with_name` equals
the specification's first-hit cascade. -/
lemma with_name_core_as_cascadeSpec (username player_name : PyStr)
    (fide_mapping : FideMap) :
    get_fide_rating_for_player_with_name_core username player_name
        fide_mapping = cascadeSpec username player_name fide_mapping := by
  unfold get_fide_rating_for_player_with_name_core cascadeSpec
  rw [find_core_as_firstSome]
  cases exact_handle_stage username fide_mapping <;>
    cases direct_order_stage player_name fide_mapping <;>
    cases reversed_order_stage player_name fide_mapping <;>
    cases substring_partial_stage player_name fide_mapping <;>
    cases variant_spelling_stage player_name fide_mapping <;>
    simp [firstSome]

/-- C3.  Both resolver functions evaluate their strategies in the strict
priority order EXACT_HANDLE, DIRECT_ORDER, REVERSED_ORDER,
SUBSTRING_PARTIAL (and, for the with-name variant, VARIANT_SPELLING),
returning the first hit; in particular, when both an EXACT_HANDLE hit and a
DIRECT_ORDER hit exist, the EXACT_HANDLE rating is returned. -/
theorem c3_cascade_strict_order :
    (∀ username player_name fide_mapping,
      get_fide_rating_for_player_with_name_core username player_name
        fide_mapping = cascadeSpec username player_name fide_mapping) ∧
    (∀ username player_name fide_mapping,
      find_fide_rating_for_player_core username player_name fide_mapping =
        firstSome
          [exact_handle_stage username fide_mapping,
           direct_order_stage player_name fide_mapping,
           reversed_order_stage player_name fide_mapping,
           substring_partial_stage player_name fide_mapping]) ∧
    (∀ username player_name fide_mapping r s,
      exact_handle_stage username fide_mapping = some r →
      direct_order_stage player_name fide_mapping = some s →
      get_fide_rating_for_player_with_name_core username player_name
        fide_mapping = some r) := by
  refine ⟨with_name_core_as_cascadeSpec, find_core_as_firstSome,
    fun username player_name fide_mapping r s hexact hdirect => ?_⟩
  rw [with_name_core_as_cascadeSpec]
  simp [cascadeSpec, hexact, firstSome]

/-- C3 (witness).  An index in which the handle itself is a key with rating
2880 while the display name's DIRECT_ORDER key holds 2900: the EXACT_HANDLE
rating 2880 is returned. -/
theorem c3_cascade_strict_order_witness :
    get_fide_rating_for_player_with_name_core "MagnusCarlsen".data
      "Magnus Carlsen".data
      [("magnuscarlsen".data, 2880), ("magnus_carlsen".data, 2900)] =
      some 2880 :=
  c3_cascade_strict_order.2.2 "MagnusCarlsen".data "Magnus Carlsen".data
    [("magnuscarlsen".data, 2880), ("magnus_carlsen".data, 2900)] 2880 2900
    (by decide) (by decide)

/-- C4.  SUBSTRING_PARTIAL is attempted only when the normalized display
name has exactly two tokens; it accepts exactly the registry entries whose
first and last underscore-separated tokens both pass the
equal-or-mutual-substring-over-4-characters test against the query's first
and last tokens; and the query "Oleksandr Ivanov", whose first token alone
matches the registry key "oleksandr_petrenko", is rejected by the whole
cascade. -/
theorem c4_substring_partial_both_tokens :
    (∀ player_name fide_mapping,
      (pySplitWS (normalize_name_for_matching player_name)).length ≠ 2 →
      substring_partial_stage player_name fide_mapping = none) ∧
    (∀ player_name fide_mapping r,
      substring_partial_stage player_name fide_mapping = some r →
      ∃ kv ∈ fide_mapping, kv.2 = r ∧
        ∃ f l, pySplitWS (normalize_name_for_matching player_name) = [f, l] ∧
          2 ≤ (splitOnChar '_' kv.1).length ∧
          tokenMatch f ((splitOnChar '_' kv.1).headD []) = true ∧
          tokenMatch l ((splitOnChar '_' kv.1).getLastD []) = true) ∧
    (∀ player_name fide_mapping f l,
      pySplitWS (normalize_name_for_matching player_name) = [f, l] →
      (∀ kv ∈ fide_mapping, substringPairMatch f l kv.1 = false) →
      substring_partial_stage player_name fide_mapping = none) ∧
    find_fide_rating_for_player_core "somehandle".data
      "Oleksandr Ivanov".data [("oleksandr_petrenko".data, 2650)] = none ∧
    get_fide_rating_for_player_with_name_core "somehandle".data
      "Oleksandr Ivanov".data [("oleksandr_petrenko".data, 2650)] = none := by
  refine ⟨?_, ?_, ?_, by decide, by decide⟩
  · intro player_name fide_mapping hlen
    unfold substring_partial_stage
    by_cases hpn : player_name = []
    · simp [hpn]
    · simp only [hpn, if_neg, ite_false]
      match hp : pySplitWS (normalize_name_for_matching player_name) with
      | [] => rfl
      | [_] => rfl
      | [f, l] => exact absurd (by simp [hp]) hlen
      | _ :: _ :: _ :: _ => rfl
  · intro player_name fide_mapping r hr
    unfold substring_partial_stage at hr
    by_cases hpn : player_name = []
    · rw [if_pos hpn] at hr; exact absurd hr (by simp)
    · rw [if_neg hpn] at hr
      revert hr
      match hp : pySplitWS (normalize_name_for_matching player_name) with
      | [] => intro hr; exact absurd hr (by simp)
      | [_] => intro hr; exact absurd hr (by simp)
      | [f, l] =>
        intro hr
        simp only [Option.map_eq_some'] at hr
        obtain ⟨kv, hfind, hv⟩ := hr
        have hmem : kv ∈ fide_mapping := List.mem_of_find?_eq_some hfind
        have hpred := List.find?_some hfind
        unfold substringPairMatch at hpred
        by_cases h2 : 2 ≤ (splitOnChar '_' kv.1).length
        · rw [if_pos h2] at hpred
          rw [Bool.and_eq_true] at hpred
          exact ⟨kv, hmem, hv, f, l, rfl, h2, hpred.1, hpred.2⟩
        · rw [if_neg h2] at hpred
          exact absurd hpred (by simp)
      | a :: b :: c :: t => intro hr; exact absurd hr (by simp)
  · intro player_name fide_mapping f l hp hnone
    unfold substring_partial_stage
    have hpn : player_name ≠ [] := by
      intro hcontra
      rw [hcontra] at hp
      simp [normalize_name_for_matching, pySplitWS, pySplitWSAux] at hp
    rw [if_neg hpn]
    rw [hp]
    have hfind : fide_mapping.find?
        (fun kv => substringPairMatch f l kv.1) = none := by
      rw [List.find?_eq_none]
      intro kv hkv
      simp [hnone kv hkv]
    dsimp only
    rw [hfind]
    rfl

/-- C4 (witness).  The three universally-quantified parts applied at
concrete inputs: a three-token name disables the stage, a successful partial
match is certified, and an index with no double match yields none. -/
theorem c4_substring_partial_both_tokens_witness :
    substring_partial_stage "Magnus Carlsen Junior".data
        [("magnus_carlsen".data, 2900)] = none ∧
    (∃ kv ∈ [("oleksandr_ivanenko".data, 2600)], kv.2 = (2600 : Int) ∧
      ∃ f l, pySplitWS (normalize_name_for_matching
        "Oleksandr Ivanenk".data) = [f, l] ∧
        2 ≤ (splitOnChar '_' kv.1).length ∧
        tokenMatch f ((splitOnChar '_' kv.1).headD []) = true ∧
        tokenMatch l ((splitOnChar '_' kv.1).getLastD []) = true) ∧
    substring_partial_stage "Oleksandr Ivanov".data
        [("oleksandr_petrenko".data, 2650)] = none :=
  ⟨c4_substring_partial_both_tokens.1 "Magnus Carlsen Junior".data
      [("magnus_carlsen".data, 2900)] (by decide),
   c4_substring_partial_both_tokens.2.1 "Oleksandr Ivanenk".data
      [("oleksandr_ivanenko".data, 2600)] 2600 (by decide),
   c4_substring_partial_both_tokens.2.2.1 "Oleksandr Ivanov".data
      [("oleksandr_petrenko".data, 2650)] "oleksandr".data "ivanov".data
      (by decide) (by decide)⟩

/-- A successful `List.find?` returns an element at some position all of
whose predecessors fail the predicate. -/
lemma find?_first {α : Type} {p : α → Bool} :
    ∀ {l : List α} {a : α}, l.find? p = some a →
      ∃ i, l.get? i = some a ∧
        ∀ j < i, ∀ x, l.get? j = some x → p x = false
  | [], a, h => by simp [List.find?] at h
  | c :: t, a, h => by
    rw [List.find?] at h
    cases hc : p c with
    | true =>
      rw [hc] at h
      refine ⟨0, ?_, ?_⟩
      · simpa using (Option.some.inj h) ▸ rfl
      · intro j hj; omega
    | false =>
      rw [hc] at h
      obtain ⟨i, hi, hbefore⟩ := find?_first h
      refine ⟨i + 1, by simpa using hi, ?_⟩
      intro j hj x hx
      match j with
      | 0 => simp at hx; rw [← hx]; exact hc
      | Nat.succ k =>
        exact hbefore k (by omega) x (by simpa using hx)

/-- C7 (counterexample).  The claim says the HeaderNotFound condition is
surfaced (reported), not silently swallowed; but `parse_fide_ratings_data`
with `verbose = false` — its default — returns a bare empty mapping with no
diagnostic at all on a header-less registry text: the condition is silently
swallowed in that source function. -/
theorem c7_header_silently_swallowed_counterexample :
    (∀ line ∈ splitOnChar '\n' (pyStrip "hello\nworld".data),
      headerPred line = false) ∧
    parse_fide_ratings_data "hello\nworld".data 2500 false = ([], []) ∧
    ParseDiag.headerNotFound ∉
      (parse_fide_ratings_data "hello\nworld".data 2500 false).2 := by
  refine ⟨by decide, by decide, by decide⟩

/-- C7 (amended).  When no line of the registry text contains both
"ID Number" and "Name", both parser variants return an empty mapping;
`parse_fide_ratings_correct` always emits the header-not-found diagnostic,
while `parse_fide_ratings_data` emits it only in verbose mode and is silent
otherwise, its empty result being the only signal.  When a header line
exists, the first matching line is the one used. -/
theorem c7_header_not_found_surfaced :
    (∀ data min_rating,
      (∀ line ∈ splitOnChar '\n' (pyStrip data), headerPred line = false) →
      parse_fide_ratings_correct data min_rating =
        ([], [ParseDiag.parsingStart min_rating,
          ParseDiag.headerNotFound]) ∧
      parse_fide_ratings_data data min_rating true =
        ([], [ParseDiag.parsingStart min_rating,
          ParseDiag.headerNotFound]) ∧
      parse_fide_ratings_data data min_rating false = ([], [])) ∧
    (∀ data min_rating header_line,
      (splitOnChar '\n' (pyStrip data)).find? headerPred =
        some header_line →
      headerPred header_line = true ∧
      (∃ i, (splitOnChar '\n' (pyStrip data)).get? i = some header_line ∧
        ∀ j < i, ∀ l,
          (splitOnChar '\n' (pyStrip data)).get? j = some l →
          headerPred l = false) ∧
      parse_fide_ratings_correct data min_rating =
        ((processRows (headerCols header_line) min_rating
            (splitOnChar '\n' (pyStrip data))).mapping,
          [ParseDiag.parsingStart min_rating,
           ParseDiag.columnPositions (headerCols header_line).name_start
             (headerCols header_line).fed_start
             (headerCols header_line).sex_start
             (headerCols header_line).tit_start,
           ParseDiag.ratingPositions (headerCols header_line).foa_start
             (headerCols header_line).srtng_start
             (headerCols header_line).rrtng_start
             (headerCols header_line).brtng_start] ++
          (processRows (headerCols header_line) min_rating
            (splitOnChar '\n' (pyStrip data))).log ++
          [ParseDiag.parsedCount
            (processRows (headerCols header_line) min_rating
              (splitOnChar '\n' (pyStrip data))).processed min_rating])) := by
  constructor
  · intro data min_rating h
    have hnone : (splitOnChar '\n' (pyStrip data)).find? headerPred = none := by
      rw [List.find?_eq_none]
      intro x hx
      simp [h x hx]
    refine ⟨?_, ?_, ?_⟩ <;>
      simp [parse_fide_ratings_correct, parse_fide_ratings_data, hnone]
  · intro data min_rating header_line hfind
    refine ⟨List.find?_some hfind, ?_, ?_⟩
    · obtain ⟨i, hi, hbefore⟩ := find?_first hfind
      exact ⟨i, hi, hbefore⟩
    · unfold parse_fide_ratings_correct
      simp [hfind]

/-- C7 (witness).  A registry text with no header line parses to the empty
mapping with the header-not-found diagnostic, and a text whose fourth line is
the only header line uses it as the header. -/
theorem c7_header_not_found_surfaced_witness :
    (parse_fide_ratings_correct "hello\nworld".data 2500 =
      ([], [ParseDiag.parsingStart 2500, ParseDiag.headerNotFound]) ∧
     parse_fide_ratings_data "hello\nworld".data 2500 true =
      ([], [ParseDiag.parsingStart 2500, ParseDiag.headerNotFound]) ∧
     parse_fide_ratings_data "hello\nworld".data 2500 false = ([], [])) ∧
    headerPred "ID Number Name".data = true :=
  ⟨(c7_header_not_found_surfaced.1 "hello\nworld".data 2500 (by decide)),
   (c7_header_not_found_surfaced.2 "x\ny\nz\nID Number Name".data 2500
      "ID Number Name".data (by decide)).1⟩

/-- One row-loop step is: look up the row's contribution and, when there is
one, insert it and bump the counters. -/
lemma rowStep_eq_rowAccepts (cols : HeaderCols) (min_rating : Int)
    (st : RowState) (line : PyStr) :
    rowStep cols min_rating st line =
      match rowAccepts cols min_rating line with
      | none => st
      | some kv =>
        { mapping := dictInsert kv.1 kv.2 st.mapping,
          processed := st.processed + 1,
          log := st.log ++ (if st.processed + 1 ≤ 10 then
            [ParseDiag.found (pyStrip (pySlice line cols.name_start
              cols.fed_start)) kv.2] else []) } := by
  unfold rowStep rowAccepts
  dsimp only
  split_ifs <;> rfl

/-- Every pair in a dict after insertion was already present or is the
inserted pair. -/
lemma mem_dictInsert {α : Type} {k : PyStr} {v : α} {m : List (PyStr × α)}
    {p : PyStr × α} (h : p ∈ dictInsert k v m) : p ∈ m ∨ p = (k, v) := by
  unfold dictInsert at h
  split_ifs at h with hmem
  · rw [List.mem_map] at h
    obtain ⟨q, hq, hpq⟩ := h
    by_cases hk : q.1 = k
    · rw [if_pos hk] at hpq; exact Or.inr hpq.symm
    · rw [if_neg hk] at hpq; exact Or.inl (hpq ▸ hq)
  · rw [List.mem_append] at h
    rcases h with h | h
    · exact Or.inl h
    · simp at h; exact Or.inr h

/-- Fold invariant of the row loop: every mapping entry of the final state
was in the initial state or is the contribution of some processed line. -/
lemma mem_foldl_rowStep (cols : HeaderCols) (min_rating : Int) :
    ∀ (lines : List PyStr) (st : RowState) (k : PyStr) (v : Int),
      (k, v) ∈ (lines.foldl (rowStep cols min_rating) st).mapping →
      (k, v) ∈ st.mapping ∨
        ∃ line ∈ lines, rowAccepts cols min_rating line = some (k, v)
  | [], st, k, v, h => Or.inl h
  | l :: t, st, k, v, h => by
    rw [List.foldl_cons] at h
    rcases mem_foldl_rowStep cols min_rating t _ k v h with h1 | h1
    · rw [rowStep_eq_rowAccepts] at h1
      cases hacc : rowAccepts cols min_rating l with
      | none => rw [hacc] at h1; exact Or.inl h1
      | some kv =>
        rw [hacc] at h1
        rcases mem_dictInsert h1 with h2 | h2
        · exact Or.inl h2
        · exact Or.inr ⟨l, List.mem_cons_self l t, by
            rw [hacc, h2]⟩
    · obtain ⟨line, hline, hrow⟩ := h1
      exact Or.inr ⟨line, List.mem_cons_of_mem l hline, hrow⟩

/-- Unpacking the guards certified by a successful row acceptance. -/
lemma rowAccepts_some_conditions {cols : HeaderCols} {min_rating : Int}
    {line : PyStr} {k : PyStr} {v : Int}
    (h : rowAccepts cols min_rating line = some (k, v)) :
    pyStrip line ≠ [] ∧
    pyIsDigit (pyStrip (pySlice line 0 10)) = true ∧
    cols.name_start < (line.length : Int) ∧
    cols.fed_start < (line.length : Int) ∧
    pyStrip (pySlice line cols.name_start cols.fed_start) ≠ "-".data ∧
    pyStrip (pySlice line cols.name_start cols.fed_start) ≠ "-, -".data ∧
    pyStrip (pySlice line cols.name_start cols.fed_start) ≠ [] ∧
    cols.brtng_start < (line.length : Int) ∧
    pyIsDigit (pyStrip (pySlice line cols.brtng_start
      (cols.brtng_start + 5))) = true ∧
    v = pyInt (pyStrip (pySlice line cols.brtng_start
      (cols.brtng_start + 5))) ∧
    min_rating ≤ v ∧
    k = normalize_fide_name
      (pyStrip (pySlice line cols.name_start cols.fed_start)) ∧
    k ≠ [] := by
  unfold rowAccepts at h
  dsimp only at h
  split_ifs at h with h1 h2 h3 h4 h5 h6 h7 h8
  simp only [Option.some.injEq, Prod.mk.injEq] at h
  obtain ⟨hk, hv⟩ := h
  have h2d : pyIsDigit (pyStrip (pySlice line 0 10)) = true := by
    simpa using h2
  refine ⟨h1, h2d, h3.1, h3.2, ?_, ?_, ?_, h5, h6, hv.symm, hv ▸ h7,
    hk.symm, hk ▸ h8⟩
  · intro hc; exact h4 (Or.inl hc)
  · intro hc; exact h4 (Or.inr (Or.inl hc))
  · intro hc; exact h4 (Or.inr (Or.inr hc))

/-- C8 (counterexample).  The parser skips the first two lines, not the
lines before the header: in a text whose header is the fourth line and whose
third line is a well-formed record, that record contributes an entry even
though it precedes the header — and here no line at all follows the header,
yet the mapping is nonempty. -/
theorem c8_pre_header_record_counterexample :
    (parse_fide_ratings_correct
      (("junk\njunk\n1234567   Smith, John     ENG             2750" ++
        "\nID Number Name            Fed SRtng RRtng BRtng").data)
      2500).1 = [("john_smith".data, 2750)] ∧
    (splitOnChar '\n' (pyStrip
      (("junk\njunk\n1234567   Smith, John     ENG             2750" ++
        "\nID Number Name            Fed SRtng RRtng BRtng").data))).find?
      headerPred =
      some "ID Number Name            Fed SRtng RRtng BRtng".data ∧
    (splitOnChar '\n' (pyStrip
      (("junk\njunk\n1234567   Smith, John     ENG             2750" ++
        "\nID Number Name            Fed SRtng RRtng BRtng").data))).get? 3 =
      some "ID Number Name            Fed SRtng RRtng BRtng".data ∧
    (splitOnChar '\n' (pyStrip
      (("junk\njunk\n1234567   Smith, John     ENG             2750" ++
        "\nID Number Name            Fed SRtng RRtng BRtng").data))).length
      = 4 := by
  refine ⟨by decide, by decide, by decide, by decide⟩

/-- C8 (amended).  Every mapping entry produced by the registry parser
originates from a line at index two or beyond (the parser unconditionally
skips the first two lines, wherever the header is) that passes all the
claimed checks: nonblank, all-digit first ten characters (trimmed),
non-placeholder name field, all-digit five-character rating field (trimmed)
whose value meets the threshold, and a nonempty normalized key. -/
theorem c8_entries_from_checked_rows :
    ∀ (data : PyStr) (min_rating : Int) (k : PyStr) (v : Int),
      (k, v) ∈ (parse_fide_ratings_correct data min_rating).1 →
      ∃ header_line,
        (splitOnChar '\n' (pyStrip data)).find? headerPred =
          some header_line ∧
        ∃ line ∈ (splitOnChar '\n' (pyStrip data)).drop 2,
          pyStrip line ≠ [] ∧
          pyIsDigit (pyStrip (pySlice line 0 10)) = true ∧
          (headerCols header_line).name_start < (line.length : Int) ∧
          (headerCols header_line).fed_start < (line.length : Int) ∧
          pyStrip (pySlice line (headerCols header_line).name_start
            (headerCols header_line).fed_start) ≠ "-".data ∧
          pyStrip (pySlice line (headerCols header_line).name_start
            (headerCols header_line).fed_start) ≠ "-, -".data ∧
          pyStrip (pySlice line (headerCols header_line).name_start
            (headerCols header_line).fed_start) ≠ [] ∧
          (headerCols header_line).brtng_start < (line.length : Int) ∧
          pyIsDigit (pyStrip (pySlice line
            (headerCols header_line).brtng_start
            ((headerCols header_line).brtng_start + 5))) = true ∧
          v = pyInt (pyStrip (pySlice line
            (headerCols header_line).brtng_start
            ((headerCols header_line).brtng_start + 5))) ∧
          min_rating ≤ v ∧
          k = normalize_fide_name (pyStrip (pySlice line
            (headerCols header_line).name_start
            (headerCols header_line).fed_start)) ∧
          k ≠ [] := by
  intro data min_rating k v h
  unfold parse_fide_ratings_correct at h
  dsimp only at h
  cases hfind : (splitOnChar '\n' (pyStrip data)).find? headerPred with
  | none =>
    rw [hfind] at h
    exact absurd h (by simp)
  | some header_line =>
    rw [hfind] at h
    dsimp only at h
    unfold processRows at h
    rcases mem_foldl_rowStep (headerCols header_line) min_rating
      ((splitOnChar '\n' (pyStrip data)).drop 2) ⟨[], 0, []⟩ k v h with
      hinit | ⟨line, hline, hrow⟩
    · exact absurd hinit (by simp)
    · exact ⟨header_line, rfl,
        ⟨line, hline, rowAccepts_some_conditions hrow⟩⟩

/-- C8 (witness).  The provenance theorem applied to a text in the normal
layout (header first): the single entry comes from the record line at index
two with every check certified. -/
theorem c8_entries_from_checked_rows_witness :
    ∃ header_line,
      (splitOnChar '\n' (pyStrip
        (("ID Number Name            Fed SRtng RRtng BRtng\njunk" ++
          "\n1234567   Smith, John     ENG             2750").data))).find?
        headerPred = some header_line ∧
      ∃ line ∈ (splitOnChar '\n' (pyStrip
        (("ID Number Name            Fed SRtng RRtng BRtng\njunk" ++
          "\n1234567   Smith, John     ENG             2750").data))).drop 2,
        pyStrip line ≠ [] ∧
        pyIsDigit (pyStrip (pySlice line 0 10)) = true ∧
        (headerCols header_line).name_start < (line.length : Int) ∧
        (headerCols header_line).fed_start < (line.length : Int) ∧
        pyStrip (pySlice line (headerCols header_line).name_start
          (headerCols header_line).fed_start) ≠ "-".data ∧
        pyStrip (pySlice line (headerCols header_line).name_start
          (headerCols header_line).fed_start) ≠ "-, -".data ∧
        pyStrip (pySlice line (headerCols header_line).name_start
          (headerCols header_line).fed_start) ≠ [] ∧
        (headerCols header_line).brtng_start < (line.length : Int) ∧
        pyIsDigit (pyStrip (pySlice line
          (headerCols header_line).brtng_start
          ((headerCols header_line).brtng_start + 5))) = true ∧
        (2750 : Int) = pyInt (pyStrip (pySlice line
          (headerCols header_line).brtng_start
          ((headerCols header_line).brtng_start + 5))) ∧
        (2500 : Int) ≤ (2750 : Int) ∧
        "john_smith".data = normalize_fide_name (pyStrip (pySlice line
          (headerCols header_line).name_start
          (headerCols header_line).fed_start)) ∧
        "john_smith".data ≠ ([] : PyStr) :=
  c8_entries_from_checked_rows
    (("ID Number Name            Fed SRtng RRtng BRtng\njunk" ++
      "\n1234567   Smith, John     ENG             2750").data)
    2500 "john_smith".data 2750 (by decide)

/-! ### Lemmas about the string primitives, towards the idempotence
analysis of the two name normalizers. -/

/-- Lowering an already-lowered character changes nothing. -/
lemma pyLowerChar_fix (c : Char) :
    pyLowerChar (pyLowerChar c) = pyLowerChar c := by
  unfold pyLowerChar
  split
  · next h =>
    rw [dif_neg]
    intro hc
    have : (Char.ofNatAux (c.toNat + 32) (Or.inl (by omega))).toNat =
        c.toNat + 32 := rfl
    omega
  · rfl

/-- A character produced by lowering is the original or a lowercase
letter. -/
lemma pyLowerChar_eq_imp {c d : Char} (h : pyLowerChar c = d) :
    c = d ∨ (97 ≤ d.toNat ∧ d.toNat ≤ 122) := by
  unfold pyLowerChar at h
  split at h
  · next hr =>
    right
    have : (Char.ofNatAux (c.toNat + 32) (Or.inl (by omega))).toNat =
        c.toNat + 32 := rfl
    rw [← h]
    omega
  · exact Or.inl h

/-- Characters of a lowered string are fixed by lowering. -/
lemma mem_pyLower_fix {c : Char} {s : PyStr} (h : c ∈ pyLower s) :
    pyLowerChar c = c := by
  unfold pyLower at h
  rw [List.mem_map] at h
  obtain ⟨d, _, hd⟩ := h
  rw [← hd, pyLowerChar_fix]

/-- Mapping a function that fixes every member is the identity. -/
lemma map_eq_self_of_fix {α : Type} {f : α → α} :
    ∀ {s : List α}, (∀ c ∈ s, f c = c) → s.map f = s
  | [], _ => rfl
  | c :: t, h => by
    rw [List.map_cons, h c (List.mem_cons_self c t),
      map_eq_self_of_fix (fun d hd => h d (List.mem_cons_of_mem c hd))]

/-- Characters surviving a strip were in the string. -/
lemma mem_pyStrip {c : Char} {s : PyStr} (h : c ∈ pyStrip s) : c ∈ s := by
  unfold pyStrip at h
  rw [List.mem_reverse] at h
  have h1 := (List.dropWhile_sublist _).subset h
  rw [List.mem_reverse] at h1
  exact (List.dropWhile_sublist _).subset h1

/-- A split never produces the empty list of pieces. -/
lemma splitOnChar_ne_nil (sep : Char) : ∀ s : PyStr, splitOnChar sep s ≠ []
  | [] => by simp [splitOnChar]
  | c :: rest => by
    unfold splitOnChar
    cases h : splitOnChar sep rest with
    | nil => simp
    | cons a t => split_ifs <;> simp

/-- Pieces of a split contain no separator and only characters of the
input. -/
lemma mem_splitOnChar {sep : Char} :
    ∀ {s : PyStr}, ∀ t ∈ splitOnChar sep s, sep ∉ t ∧ ∀ c ∈ t, c ∈ s
  | [], t, ht => by
    simp [splitOnChar] at ht
    simp [ht]
  | c :: rest, t, ht => by
    unfold splitOnChar at ht
    cases h : splitOnChar sep rest with
    | nil => exact absurd h (splitOnChar_ne_nil sep rest)
    | cons a l =>
      rw [h] at ht
      split_ifs at ht with hc
    
      · rcases List.mem_cons.1 ht with h1 | h1
        · simp [h1]
        · have := mem_splitOnChar (s := rest) t (h ▸ h1)
          exact ⟨this.1, fun d hd => List.mem_cons_of_mem c (this.2 d hd)⟩
      · rcases List.mem_cons.1 ht with h1 | h1
        · have ha := mem_splitOnChar (s := rest) a
            (h ▸ List.mem_cons_self a l)
          subst h1
          constructor
          · intro hmem
            rcases List.mem_cons.1 hmem with h2 | h2
            · exact hc h2.symm
            · exact ha.1 h2
          · intro d hd
            rcases List.mem_cons.1 hd with h2 | h2
            · exact h2 ▸ List.mem_cons_self c rest
            · exact List.mem_cons_of_mem c (ha.2 d h2)
        · have := mem_splitOnChar (s := rest) t
            (h ▸ List.mem_cons_of_mem a h1)
          exact ⟨this.1, fun d hd => List.mem_cons_of_mem c (this.2 d hd)⟩

/-- Splitting a separator-free string yields the single whole piece. -/
lemma splitOnChar_no_sep {sep : Char} :
    ∀ {s : PyStr}, sep ∉ s → splitOnChar sep s = [s]
  | [], _ => rfl
  | c :: rest, h => by
    unfold splitOnChar
    rw [splitOnChar_no_sep (fun hm => h (List.mem_cons_of_mem c hm))]
    dsimp only
    rw [if_neg (fun hc : c = sep => h (hc ▸ List.mem_cons_self c rest))]

/-- Tokens produced by whitespace splitting are nonempty, whitespace-free,
and drawn from the input (or the pending accumulator). -/
lemma splitWSAux_props :
    ∀ (s acc : PyStr), (∀ c ∈ acc, isPySpace c = false) →
      ∀ t ∈ pySplitWSAux s acc,
        t ≠ [] ∧ ∀ c ∈ t, isPySpace c = false ∧ (c ∈ s ∨ c ∈ acc)
  | [], acc, hacc, t, ht => by
    unfold pySplitWSAux at ht
    split_ifs at ht with h
    · exact absurd ht (by simp)
    · simp at ht
      subst ht
      refine ⟨by simpa using h, fun c hc => ?_⟩
      rw [List.mem_reverse] at hc
      exact ⟨hacc c hc, Or.inr hc⟩
  | c :: rest, acc, hacc, t, ht => by
    unfold pySplitWSAux at ht
    split_ifs at ht with hsp hnil
    · have := splitWSAux_props rest [] (by simp) t ht
      exact ⟨this.1, fun d hd => ⟨(this.2 d hd).1,
        Or.inl (List.mem_cons_of_mem c ((this.2 d hd).2.elim id (by simp)))⟩⟩
    · rcases List.mem_cons.1 ht with h1 | h1
      · subst h1
        refine ⟨by simpa using hnil, fun d hd => ?_⟩
        rw [List.mem_reverse] at hd
        exact ⟨hacc d hd, Or.inr hd⟩
      · have := splitWSAux_props rest [] (by simp) t h1
        exact ⟨this.1, fun d hd => ⟨(this.2 d hd).1,
          Or.inl (List.mem_cons_of_mem c ((this.2 d hd).2.elim id (by simp)))⟩⟩
    · have := splitWSAux_props rest (c :: acc)
        (fun d hd => by
          rcases List.mem_cons.1 hd with h1 | h1
          · subst h1; simpa using hsp
          · exact hacc d h1) t ht
      refine ⟨this.1, fun d hd => ⟨(this.2 d hd).1, ?_⟩⟩
      rcases (this.2 d hd).2 with h1 | h1
      · exact Or.inl (List.mem_cons_of_mem c h1)
      · rcases List.mem_cons.1 h1 with h2 | h2
        · exact Or.inl (h2 ▸ List.mem_cons_self c rest)
        · exact Or.inr h2

/-- Tokens of `pySplitWS` are nonempty, whitespace-free, and drawn from the
input. -/
lemma pySplitWS_props {s : PyStr} {t : PyStr} (ht : t ∈ pySplitWS s) :
    t ≠ [] ∧ ∀ c ∈ t, isPySpace c = false ∧ c ∈ s := by
  have := splitWSAux_props s [] (by simp) t ht
  exact ⟨this.1, fun c hc =>
    ⟨(this.2 c hc).1, (this.2 c hc).2.elim id (by simp)⟩⟩

/-- Scanning a whitespace-free prefix moves it into the accumulator. -/
lemma splitWSAux_append :
    ∀ (t u acc : PyStr), (∀ c ∈ t, isPySpace c = false) →
      pySplitWSAux (t ++ u) acc = pySplitWSAux u (t.reverse ++ acc)
  | [], u, acc, _ => by simp
  | c :: t, u, acc, h => by
    have hc : isPySpace c = false := h c (List.mem_cons_self c t)
    rw [List.cons_append, pySplitWSAux, if_neg (by rw [hc]; simp),
      splitWSAux_append t u (c :: acc)
        (fun d hd => h d (List.mem_cons_of_mem c hd))]
    congr 1
    simp

/-- Splitting a single-space join of nonempty whitespace-free tokens
recovers the tokens. -/
lemma pySplitWS_joinSpace :
    ∀ ts : List PyStr, (∀ t ∈ ts, t ≠ []) →
      (∀ t ∈ ts, ∀ c ∈ t, isPySpace c = false) →
      pySplitWS (joinSpace ts) = ts
  | [], _, _ => rfl
  | [t], hne, hsp => by
    have h1 : joinSpace [t] = t ++ [] := by simp [joinSpace]
    unfold pySplitWS
    rw [h1, splitWSAux_append t [] [] (hsp t (by simp))]
    unfold pySplitWSAux
    rw [if_neg (by simpa using hne t (by simp))]
    simp
  | t :: u :: ts, hne, hsp => by
    have h1 : joinSpace (t :: u :: ts) = t ++ ' ' :: joinSpace (u :: ts) := by
      simp [joinSpace]
    unfold pySplitWS
    rw [h1, splitWSAux_append t (' ' :: joinSpace (u :: ts)) []
      (hsp t (by simp))]
    unfold pySplitWSAux
    rw [if_pos (by decide)]
    rw [if_neg (by simpa using hne t (by simp))]
    have := pySplitWS_joinSpace (u :: ts)
      (fun x hx => hne x (List.mem_cons_of_mem t hx))
      (fun x hx => hsp x (List.mem_cons_of_mem t hx))
    unfold pySplitWS at this
    rw [List.append_nil, List.reverse_reverse, this]

/-- Every character of a single-space join is a token character or the
space separator. -/
lemma mem_joinSpace :
    ∀ {ts : List PyStr} {c : Char}, c ∈ joinSpace ts →
      (∃ t ∈ ts, c ∈ t) ∨ c = ' '
  | [], c, h => by simp [joinSpace] at h
  | [t], c, h => by
    rw [show joinSpace [t] = t from rfl] at h
    exact Or.inl ⟨t, by simp, h⟩
  | t :: u :: ts, c, h => by
    rw [show joinSpace (t :: u :: ts) = t ++ ' ' :: joinSpace (u :: ts)
      from rfl] at h
    rw [List.mem_append] at h
    rcases h with h | h
    · exact Or.inl ⟨t, by simp, h⟩
    · rcases List.mem_cons.1 h with h1 | h1
      · exact Or.inr h1
      · rcases mem_joinSpace h1 with ⟨x, hx, hcx⟩ | h2
        · exact Or.inl ⟨x, List.mem_cons_of_mem t hx, hcx⟩
        · exact Or.inr h2

/-- A string whose first and last characters are not whitespace strips to
itself. -/
lemma pyStrip_eq_self_of_ends {s : PyStr}
    (hh : ∀ c, s.head? = some c → isPySpace c = false)
    (hl : ∀ c, s.getLast? = some c → isPySpace c = false) :
    pyStrip s = s := by
  unfold pyStrip
  have h1 : s.dropWhile isPySpace = s := by
    cases hs : s with
    | nil => simp
    | cons c t =>
      have hc : isPySpace c = false := hh c (by rw [hs]; rfl)
      rw [List.dropWhile_cons, if_neg (by rw [hc]; simp)]
  rw [h1]
  have h2 : s.reverse.dropWhile isPySpace = s.reverse := by
    cases hs : s.reverse with
    | nil => simp
    | cons c t =>
      have hgl : s.getLast? = some c := by
        rw [List.getLast?_eq_head?_reverse, hs]; rfl
      have hc : isPySpace c = false := hl c hgl
      rw [List.dropWhile_cons, if_neg (by rw [hc]; simp)]
  rw [h2, List.reverse_reverse]

/-- The head of a join of tokens whose first token is nonempty is the first
token's head. -/
lemma joinSpace_head? {t : PyStr} {ts : List PyStr} (h : t ≠ []) :
    (joinSpace (t :: ts)).head? = t.head? := by
  cases ts with
  | nil => rfl
  | cons u ts =>
    rw [show joinSpace (t :: u :: ts) = t ++ ' ' :: joinSpace (u :: ts)
      from rfl]
    exact List.head?_append_of_ne_nil t h

/-- A join of nonempty tokens is nonempty. -/
lemma joinSpace_ne_nil {t : PyStr} {ts : List PyStr} (h : t ≠ []) :
    joinSpace (t :: ts) ≠ [] := by
  cases ts with
  | nil => exact h
  | cons u ts =>
    rw [show joinSpace (t :: u :: ts) = t ++ ' ' :: joinSpace (u :: ts)
      from rfl]
    simp

/-- The last character of a join of nonempty tokens belongs to some
token. -/
lemma joinSpace_getLast?_mem :
    ∀ {ts : List PyStr}, (∀ t ∈ ts, t ≠ []) →
      ∀ c, (joinSpace ts).getLast? = some c → ∃ t ∈ ts, c ∈ t
  | [], _, c, h => by simp [joinSpace] at h
  | [t], _, c, h => by
    rw [show joinSpace [t] = t from rfl] at h
    refine ⟨t, by simp, ?_⟩
    rw [List.getLast?_eq_head?_reverse] at h
    have : c ∈ t.reverse := by
      cases ht : t.reverse with
      | nil => rw [ht] at h; simp at h
      | cons a l => rw [ht] at h; simp at h; simp [ht, h]
    exact List.mem_reverse.1 this
  | t :: u :: ts, hne, c, h => by
    rw [show joinSpace (t :: u :: ts) = t ++ ' ' :: joinSpace (u :: ts)
      from rfl] at h
    rw [show (' ' :: joinSpace (u :: ts)) = [' '] ++ joinSpace (u :: ts)
      from rfl] at h
    rw [← List.append_assoc] at h
    rw [List.getLast?_append_of_ne_nil _
      (joinSpace_ne_nil (hne u (by simp)))] at h
    obtain ⟨x, hx, hcx⟩ := joinSpace_getLast?_mem
      (fun v hv => hne v (List.mem_cons_of_mem t hv)) c h
    exact ⟨x, List.mem_cons_of_mem t hx, hcx⟩

/-- A whole-word substitution on a string with no whole-word occurrence is
the identity. -/
lemma subWordAux_eq_self_of_no_match {pat : PyStr} :
    ∀ {s : PyStr} {prev : Option Char},
      hasWordSubAux pat prev s = false → subWordAux pat prev 0 s = s
  | [], _, _ => rfl
  | c :: rest, prev, h => by
    unfold hasWordSubAux at h
    rw [Bool.or_eq_false_iff] at h
    unfold subWordAux
    rw [if_neg (by rw [h.1]; simp)]
    rw [subWordAux_eq_self_of_no_match h.2]

/-- A country-code substitution on a string with no pattern occurrence is
the identity. -/
lemma subCCAux_eq_self_of_no_match :
    ∀ {s : PyStr}, hasCC s = false → subCCAux 0 s = s
  | [], _ => rfl
  | c :: rest, h => by
    unfold hasCC at h
    rw [Bool.or_eq_false_iff] at h
    unfold subCCAux
    cases hm : ccMatchLen (c :: rest) with
    | some len => rw [hm] at h; simp at h
    | none => rw [subCCAux_eq_self_of_no_match h.2]

/-- Characters surviving a whole-word substitution come from the input. -/
lemma mem_subWordAux {pat : PyStr} {c : Char} :
    ∀ {s : PyStr} {prev : Option Char} {skip : Nat},
      c ∈ subWordAux pat prev skip s → c ∈ s
  | [], _, _, h => by simp [subWordAux] at h
  | d :: rest, prev, Nat.succ k, h => by
    unfold subWordAux at h
    exact List.mem_cons_of_mem d (mem_subWordAux h)
  | d :: rest, prev, 0, h => by
    unfold subWordAux at h
    split_ifs at h
    · exact List.mem_cons_of_mem d (mem_subWordAux h)
    · rcases List.mem_cons.1 h with h1 | h1
      · exact h1 ▸ List.mem_cons_self d rest
      · exact List.mem_cons_of_mem d (mem_subWordAux h1)

/-- Characters surviving a country-code substitution come from the input. -/
lemma mem_subCCAux {c : Char} :
    ∀ {s : PyStr} {skip : Nat}, c ∈ subCCAux skip s → c ∈ s
  | [], _, h => by simp [subCCAux] at h
  | d :: rest, Nat.succ k, h => by
    unfold subCCAux at h
    exact List.mem_cons_of_mem d (mem_subCCAux h)
  | d :: rest, 0, h => by
    unfold subCCAux at h
    revert h
    cases hm : ccMatchLen (d :: rest) with
    | some len =>
      intro h
      exact List.mem_cons_of_mem d (mem_subCCAux h)
    | none =>
      intro h
      rcases List.mem_cons.1 h with h1 | h1
      · exact h1 ▸ List.mem_cons_self d rest
      · exact List.mem_cons_of_mem d (mem_subCCAux h1)

/-- A fold whose every step fixes the accumulator fixes it. -/
lemma foldl_eq_self_of_fix {α β : Type} {f : α → β → α} {a : α} :
    ∀ {l : List β}, (∀ b ∈ l, f a b = a) → l.foldl f a = a
  | [], _ => rfl
  | b :: t, h => by
    rw [List.foldl_cons, h b (List.mem_cons_self b t)]
    exact foldl_eq_self_of_fix (fun x hx => h x (List.mem_cons_of_mem b hx))

/-- Characters of the title-removal fold come from the input string. -/
lemma mem_titles_foldl {c : Char} :
    ∀ {l : List PyStr} {s : PyStr},
      c ∈ l.foldl (fun acc t => pyStrip (subWord t acc)) s → c ∈ s
  | [], s, h => h
  | t :: rest, s, h => by
    rw [List.foldl_cons] at h
    exact mem_subWordAux (mem_pyStrip (mem_titles_foldl h))

/-- The free-text normalizer returns the empty string or a single-space join
of whitespace-split tokens. -/
lemma norm_matching_shape (x : PyStr) :
    normalize_name_for_matching x = [] ∨
      ∃ z, normalize_name_for_matching x = joinSpace (pySplitWS z) := by
  unfold normalize_name_for_matching
  by_cases hx : x = []
  · rw [if_pos hx]; exact Or.inl rfl
  · rw [if_neg hx]; exact Or.inr ⟨_, rfl⟩

/-- Every character of the free-text normalizer's output is fixed by
lowering. -/
lemma norm_matching_lower {x : PyStr} {c : Char}
    (h : c ∈ normalize_name_for_matching x) : pyLowerChar c = c := by
  unfold normalize_name_for_matching at h
  by_cases hx : x = []
  · rw [if_pos hx] at h; simp at h
  · rw [if_neg hx] at h
    rcases mem_joinSpace h with ⟨t, ht, hct⟩ | hsp
    · have hz := (pySplitWS_props ht).2 c hct
      have h3 := hz.2
      have h2 := mem_subCCAux (mem_pyStrip h3)
      have h1 := mem_pyLower_fix (mem_pyStrip (mem_titles_foldl h2))
      exact h1
    · rw [hsp]; decide

/-- The free-text normalizer's output strips to itself. -/
lemma norm_matching_strip (x : PyStr) :
    pyStrip (normalize_name_for_matching x) =
      normalize_name_for_matching x := by
  rcases norm_matching_shape x with h | ⟨z, h⟩
  · rw [h]; rfl
  · rw [h]
    cases hz : pySplitWS z with
    | nil => rfl
    | cons t ts =>
      have hprops : ∀ u ∈ pySplitWS z, u ≠ [] ∧
          ∀ c ∈ u, isPySpace c = false ∧ c ∈ z :=
        fun u hu => pySplitWS_props hu
      refine pyStrip_eq_self_of_ends (fun c hc => ?_) (fun c hc => ?_)
      · have htmem : t ∈ pySplitWS z := hz ▸ List.mem_cons_self t ts
        rw [joinSpace_head? (hprops t htmem).1] at hc
        have hct : c ∈ t := by
          cases t with
          | nil => simp at hc
          | cons a l => simp at hc; simp [hc]
        exact ((hprops t htmem).2 c hct).1
      · obtain ⟨u, hu, hcu⟩ := joinSpace_getLast?_mem
          (fun v hv => (hprops v (hz ▸ hv)).1) c hc
        exact ((hprops u (hz ▸ hu)).2 c hcu).1

/-- Splitting and rejoining the free-text normalizer's output is the
identity. -/
lemma norm_matching_split_stable (x : PyStr) :
    joinSpace (pySplitWS (normalize_name_for_matching x)) =
      normalize_name_for_matching x := by
  rcases norm_matching_shape x with h | ⟨z, h⟩
  · rw [h]; rfl
  · rw [h]
    rw [pySplitWS_joinSpace (pySplitWS z)
      (fun t ht => (pySplitWS_props ht).1)
      (fun t ht c hc => ((pySplitWS_props ht).2 c hc).1)]

/-- The free-text normalizer's output is already lowercase. -/
lemma norm_matching_lower_str (x : PyStr) :
    pyLower (normalize_name_for_matching x) =
      normalize_name_for_matching x :=
  map_eq_self_of_fix (fun _ hc => norm_matching_lower hc)

/-- The free-text normalizer is idempotent on every input whose output
contains no whole-word title token and no parenthesised country code. -/
lemma norm_matching_idem (x : PyStr)
    (ht : ∀ t ∈ matchingTitles,
      hasWordSub t (normalize_name_for_matching x) = false)
    (hcc : hasCC (normalize_name_for_matching x) = false) :
    normalize_name_for_matching (normalize_name_for_matching x) =
      normalize_name_for_matching x := by
  by_cases hynil : normalize_name_for_matching x = []
  · rw [hynil]; decide
  · conv_lhs => rw [normalize_name_for_matching]
    rw [if_neg hynil]
    dsimp only
    rw [norm_matching_lower_str x, norm_matching_strip x]
    rw [foldl_eq_self_of_fix (fun t htm => by
      unfold subWord
      rw [subWordAux_eq_self_of_no_match (ht t htm), norm_matching_strip x])]
    unfold subCC
    rw [subCCAux_eq_self_of_no_match hcc, norm_matching_strip x]
    exact norm_matching_split_stable x

/-- The head of a list with a default is a member or the default. -/
lemma headD_mem_or {α : Type} (l : List α) (d : α) :
    l.headD d ∈ l ∨ l.headD d = d := by
  cases l with
  | nil => exact Or.inr rfl
  | cons a t => exact Or.inl (by simp)

/-- Every character of the registry normalizer's output is fixed by
lowering. -/
lemma normalize_fide_name_lower {x : PyStr} {c : Char}
    (h : c ∈ normalize_fide_name x) : pyLowerChar c = c := by
  unfold normalize_fide_name at h
  split_ifs at h with hguard
  · simp at h
  · have hfb : c ∈ ((pyLower x).map
          (fun d => if d = ' ' then '_' else d)).filter
          (fun d => d ≠ ',') → pyLowerChar c = c := by
      intro hc
      have h1 := List.mem_filter.1 hc
      rw [List.mem_map] at h1
      obtain ⟨⟨d, hd, hdc⟩, _⟩ := h1
      by_cases hds : d = ' '
      · rw [if_pos hds] at hdc; rw [← hdc]; decide
      · rw [if_neg hds] at hdc
        exact hdc ▸ mem_pyLower_fix hd
    revert h
    cases hsplit : splitOnChar ',' x with
    | nil => exact absurd hsplit (splitOnChar_ne_nil ',' x)
    | cons p0 t =>
      cases t with
      | nil =>
        intro h
        exact hfb h
      | cons p1 t2 =>
        intro h
        dsimp only at h
        split_ifs at h with hcond
        · rcases List.mem_append.1 h with h1 | h1
          · exact mem_pyLower_fix h1
          · rcases List.mem_cons.1 h1 with h2 | h2
            · rw [h2]; decide
            · exact mem_pyLower_fix h2
        · exact hfb h

/-- The registry normalizer's output contains no comma. -/
lemma normalize_fide_name_no_comma (x : PyStr) :
    ',' ∉ normalize_fide_name x := by
  intro h
  unfold normalize_fide_name at h
  split_ifs at h with hguard
  · simp at h
  · have hfb : ',' ∉ ((pyLower x).map
        (fun d => if d = ' ' then '_' else d)).filter
        (fun d => d ≠ ',') := by
      intro hc
      have h1 := List.mem_filter.1 hc
      have := h1.2
      simp at this
    revert h
    cases hsplit : splitOnChar ',' x with
    | nil => exact absurd hsplit (splitOnChar_ne_nil ',' x)
    | cons p0 t =>
      cases t with
      | nil => exact fun h => hfb h
      | cons p1 t2 =>
        intro h
        dsimp only at h
        split_ifs at h with hcond
        · have hp0 : ',' ∉ p0 :=
            (mem_splitOnChar p0 (hsplit ▸ List.mem_cons_self p0 _)).1
          have hp1 : ',' ∉ p1 :=
            (mem_splitOnChar p1 (hsplit ▸ List.mem_cons_of_mem p0
              (List.mem_cons_self p1 t2))).1
          rcases List.mem_append.1 h with h1 | h1
          · rw [pyLower, List.mem_map] at h1
            obtain ⟨d, hd, hdc⟩ := h1
            rcases pyLowerChar_eq_imp hdc with h2 | h2
            · rw [h2] at hd
              rcases headD_mem_or (pySplitWS (pyStrip p1)) [] with h3 | h3
              · exact hp1 (mem_pyStrip (((pySplitWS_props h3).2 ',' hd).2))
              · rw [h3] at hd; simp at hd
            · revert h2; decide
          · rcases List.mem_cons.1 h1 with h2 | h2
            · exact absurd h2.symm (by decide)
            · rw [pyLower, List.mem_map] at h2
              obtain ⟨d, hd, hdc⟩ := h2
              rcases pyLowerChar_eq_imp hdc with h3 | h3
              · rw [h3] at hd
                exact hp0 (mem_pyStrip hd)
              · revert h3; decide
        · exact hfb h

/-- The registry normalizer is idempotent on every input whose output
contains no space and is not the single-dash placeholder. -/
lemma normalize_fide_idem (x : PyStr)
    (hsp : ' ' ∉ normalize_fide_name x)
    (hdash : normalize_fide_name x ≠ "-".data) :
    normalize_fide_name (normalize_fide_name x) = normalize_fide_name x := by
  by_cases hynil : normalize_fide_name x = []
  · rw [hynil]; decide
  · have hcomma := normalize_fide_name_no_comma x
    have hdd : normalize_fide_name x ≠ "-, -".data := by
      intro hq
      exact hsp (hq ▸ (by decide : ' ' ∈ "-, -".data))
    conv_lhs => rw [normalize_fide_name]
    rw [if_neg (by simp [hynil, hdash, hdd])]
    dsimp only
    rw [splitOnChar_no_sep hcomma]
    dsimp only
    unfold pyLower
    rw [map_eq_self_of_fix (fun c hc => normalize_fide_name_lower hc)]
    rw [map_eq_self_of_fix (fun c hc => by
      rw [if_neg (fun hc2 : c = ' ' => hsp (hc2 ▸ hc))])]
    rw [List.filter_eq_self.mpr (fun c hc => by
      simp
      exact fun hc2 => hcomma (hc2 ▸ hc))]

/-- C5 (counterexample).  Neither normalizer is idempotent: the registry
form "Van der Berg, Jan" normalizes to a key with an internal space, which
renormalizes differently, and the free text "g(us)m" normalizes to "gm",
which a second pass strips as a title token. -/
theorem c5_normalization_not_idempotent_counterexample :
    normalize_fide_name (normalize_fide_name "Van der Berg, Jan".data) ≠
      normalize_fide_name "Van der Berg, Jan".data ∧
    normalize_fide_name "Van der Berg, Jan".data =
      "jan_van der berg".data ∧
    normalize_fide_name (normalize_fide_name "Van der Berg, Jan".data) =
      "jan_van_der_berg".data ∧
    normalize_name_for_matching
        (normalize_name_for_matching "g(us)m".data) ≠
      normalize_name_for_matching "g(us)m".data ∧
    normalize_name_for_matching "g(us)m".data = "gm".data ∧
    normalize_name_for_matching
      (normalize_name_for_matching "g(us)m".data) = [] := by
  refine ⟨by decide, by decide, by decide, by decide, by decide, by decide⟩

/-- C5 (amended).  Each normalizer is idempotent on its well-behaved
outputs: the registry normalizer whenever its output contains no space and
is not the placeholder "-", and the free-text normalizer whenever its output
contains no whole-word title token and no parenthesised 2-3 letter code. -/
theorem c5_normalization_idempotent_conditionally :
    (∀ x : PyStr, ' ' ∉ normalize_fide_name x →
      normalize_fide_name x ≠ "-".data →
      normalize_fide_name (normalize_fide_name x) =
        normalize_fide_name x) ∧
    (∀ x : PyStr,
      (∀ t ∈ matchingTitles,
        hasWordSub t (normalize_name_for_matching x) = false) →
      hasCC (normalize_name_for_matching x) = false →
      normalize_name_for_matching (normalize_name_for_matching x) =
        normalize_name_for_matching x) :=
  ⟨normalize_fide_idem, norm_matching_idem⟩

/-- C5 (witness).  Idempotence at the registry name "Carlsen, Magnus" and at
the free-text name "GM Magnus Carlsen". -/
theorem c5_normalization_idempotent_conditionally_witness :
    normalize_fide_name (normalize_fide_name "Carlsen, Magnus".data) =
      normalize_fide_name "Carlsen, Magnus".data ∧
    normalize_name_for_matching (normalize_name_for_matching
      "GM Magnus Carlsen".data) =
      normalize_name_for_matching "GM Magnus Carlsen".data :=
  ⟨c5_normalization_idempotent_conditionally.1 "Carlsen, Magnus".data
      (by decide) (by decide),
   c5_normalization_idempotent_conditionally.2 "GM Magnus Carlsen".data
      (by decide) (by decide)⟩
